import Mathlib

/-!
# Return address stack (`cpu/pred/ras.cc`)

A shallow embedding of `ReturnAddrStack` and its operations `init`, `reset`,
`push`, `pop` and `restore`.

* The three `unsigned` members (`numEntries`, `usedEntries`, `tos`) are natural
  numbers; the one arithmetic step of `ras.cc` that can wrap (`++usedEntries`)
  is reduced modulo `2 ^ 32` explicitly.
* `addrStack` (a `std::vector`) is a list.  Every subscripted access
  `addrStack[i]` is bounds checked: an access outside the vector is undefined
  behaviour in the source and is `none` here.
-/

namespace RAS

/-- Modelled from the spec: the program-counter-state type `TheISA::PCState` is
declared outside `ras.cc`.  The spec treats it as an opaque, copyable value with a
neutral/zero value, the one a slot holds after `set(0)`; `fresh` is the value of
a default-constructed element, which `std::vector::resize` appends. -/
class PCState (PC : Type) where
  /-- Value of a default-constructed program-counter state. -/
  fresh : PC
  /-- Neutral value held by a slot after `set(0)`. -/
  zero : PC

instance : PCState Nat := ⟨0, 0⟩

/-- Number of values of the C++ type `unsigned`. -/
abbrev wordMod : Nat := 4294967296

/-- Data members of `ReturnAddrStack`. -/
structure ReturnAddrStack (PC : Type) where
  /-- The number of entries in the RAS (`unsigned numEntries`). -/
  numEntries : Nat
  /-- The storage (`std::vector<PCState> addrStack`). -/
  addrStack : List PC
  /-- The top of stack index (`unsigned tos`). -/
  tos : Nat
  /-- The number of used entries (`unsigned usedEntries`). -/
  usedEntries : Nat
deriving DecidableEq

variable {PC : Type}

/-- Bounds-checked element assignment `vec[i] = v`. -/
def store (stk : List PC) (i : Nat) (v : PC) : Option (List PC) :=
  if i < stk.length then some (stk.set i v) else none

/-- The call `vec.resize(n)`: truncate to `n` elements, or append
default-constructed elements up to length `n`. -/
def resize [PCState PC] (stk : List PC) (n : Nat) : List PC :=
  stk.take n ++ List.replicate (n - stk.length) PCState.fresh

/-- The loop of `reset`: `for (i = 0; i < numEntries; ++i) addrStack[i].set(0)`. -/
def resetLoop [PCState PC] (numEntries : Nat) (stk : List PC) : Option (List PC) :=
  (List.range numEntries).foldlM (fun acc i => store acc i PCState.zero) stk

/-- The method `ReturnAddrStack::reset`. -/
def reset [PCState PC] (s : ReturnAddrStack PC) : Option (ReturnAddrStack PC) :=
  (resetLoop s.numEntries s.addrStack).map fun stk =>
    { s with usedEntries := 0, tos := 0, addrStack := stk }

/-- The method `ReturnAddrStack::init`, run on an object in state `s`. -/
def init [PCState PC] (s : ReturnAddrStack PC) (n : Nat) : Option (ReturnAddrStack PC) :=
  reset { s with numEntries := n, addrStack := resize s.addrStack n }

/-- Modelled from the spec: `incrTos` is defined in the header `ras.hh`, which is
not among the sources.  The spec gives the step as
`top = (top + 1) mod capacity`, for a capacity that is positive. -/
def incrTos (s : ReturnAddrStack PC) : ReturnAddrStack PC :=
  { s with tos := (s.tos + 1) % s.numEntries }

/-- Modelled from the spec: `decrTos` is defined in the header `ras.hh`, which is
not among the sources.  The spec gives the step as
`top = (top == 0) ? capacity - 1 : top - 1`, for a capacity that is positive. -/
def decrTos (s : ReturnAddrStack PC) : ReturnAddrStack PC :=
  { s with tos := if s.tos = 0 then s.numEntries - 1 else s.tos - 1 }

/-- The method `ReturnAddrStack::push`. -/
def push (return_addr : PC) (s : ReturnAddrStack PC) : Option (ReturnAddrStack PC) :=
  let s1 := incrTos s
  (store s1.addrStack s1.tos return_addr).map fun stk =>
    if s1.usedEntries ≠ s1.numEntries then
      { s1 with addrStack := stk, usedEntries := (s1.usedEntries + 1) % wordMod }
    else
      { s1 with addrStack := stk }

/-- The method `ReturnAddrStack::pop`; it touches no element of the vector. -/
def pop (s : ReturnAddrStack PC) : ReturnAddrStack PC :=
  decrTos (if s.usedEntries > 0 then { s with usedEntries := s.usedEntries - 1 } else s)

/-- The method `ReturnAddrStack::restore`. -/
def restore (top_entry_idx : Nat) (restored : PC) (s : ReturnAddrStack PC) :
    Option (ReturnAddrStack PC) :=
  let s1 := { s with tos := top_entry_idx }
  (store s1.addrStack s1.tos restored).map fun stk => { s1 with addrStack := stk }

/-- Modelled from the spec: the read accessor for the current top value
(`entries[top]`), which the header `ras.hh` defines; bounds checked. -/
def topValue (s : ReturnAddrStack PC) : Option PC :=
  s.addrStack[s.tos]?

/-- One call made by the owner of the stack after `init`. -/
inductive Op (PC : Type) where
  | reset : Op PC
  | push (v : PC) : Op PC
  | pop : Op PC
  | restore (idx : Nat) (v : PC) : Op PC
deriving DecidableEq

/-- Execute one call. -/
def step [PCState PC] (s : ReturnAddrStack PC) : Op PC → Option (ReturnAddrStack PC)
  | Op.reset => reset s
  | Op.push v => push v s
  | Op.pop => some (pop s)
  | Op.restore idx v => restore idx v s

/-- Execute a sequence of calls, first to last. -/
def run [PCState PC] (s : ReturnAddrStack PC) (ops : List (Op PC)) :
    Option (ReturnAddrStack PC) :=
  ops.foldlM step s

/-- `init(C)` on an object in state `s0`, followed by the calls `ops`. -/
def runFromInit [PCState PC] (s0 : ReturnAddrStack PC) (C : Nat) (ops : List (Op PC)) :
    Option (ReturnAddrStack PC) :=
  (init s0 C).bind fun s => run s ops

/-- The states the stack can be in after `init(C)` and any finite sequence of
calls none of which leaves the vector. -/
def Reachable [PCState PC] (C : Nat) (s : ReturnAddrStack PC) : Prop :=
  ∃ (s0 : ReturnAddrStack PC) (ops : List (Op PC)), runFromInit s0 C ops = some s

/-- Every `restore` in the sequence names a slot below `C`. -/
def RestoresBelow (C : Nat) : List (Op PC) → Prop
  | [] => True
  | Op.restore idx _ :: ops => idx < C ∧ RestoresBelow C ops
  | _ :: ops => RestoresBelow C ops

/-- Push the values of a list, first to last. -/
def pushAll (vs : List PC) (s : ReturnAddrStack PC) : Option (ReturnAddrStack PC) :=
  vs.foldlM (fun acc v => push v acc) s

/-- Apply `pop` `j` times. -/
def popN : Nat → ReturnAddrStack PC → ReturnAddrStack PC
  | 0, s => s
  | j + 1, s => popN j (pop s)

/-- A default-constructed object before `init`: an empty vector; the scalar
members are indeterminate and `init` overwrites them. -/
def blank : ReturnAddrStack PC := ⟨0, [], 0, 0⟩

/-- The representation invariant of a stack of capacity `C`. -/
structure Inv (C : Nat) (s : ReturnAddrStack PC) : Prop where
  cap : s.numEntries = C
  len : s.addrStack.length = C
  top : s.tos < C
  used : s.usedEntries ≤ C

/-- The subscripts a call applies to `addrStack`, in program order: `reset`
uses every `i` with `0 ≤ i < numEntries`, `push` uses `tos` after `incrTos`,
`restore` uses the index it has just stored in `tos`, and `pop` uses none. -/
def subscripts (s : ReturnAddrStack PC) : Op PC → List Nat
  | Op.reset => List.range s.numEntries
  | Op.push _ => [(incrTos s).tos]
  | Op.pop => []
  | Op.restore idx _ => [idx]

end RAS

/-!
# DRAMSim3 wrapper (`mem/dramsim3_wrapper.cc`)

The constructor of `DRAMSim3Wrapper` and the accessors `queueSize` and
`burstSize`, as a function of the four values the memory system reports.

* The clock period is a `double` of which the constructor only asks whether it
  is zero (`!_clockPeriod`); it is a value of a type `Clock` with the zero
  test `ClockPeriod.isZero`.
* `_queueSize`, `_burstSize` and the locals `dataBusBits`, `burstLength` are
  `unsigned int`: natural numbers, reduced modulo `2 ^ 32` on assignment and
  after the multiplication.
* The macro `fatal` ends the simulation; the constructor returns the error that
  names which call of `fatal` was reached.
-/

namespace DRAMSim3

/-- The clock period type (`double` in the source), with the test `!x`. -/
class ClockPeriod (Clock : Type) where
  /-- The test `!x`: whether the value compares equal to zero. -/
  isZero : Clock → Bool

instance : ClockPeriod Nat := ⟨fun x => x == 0⟩

/-- The values that the memory system `dramsim3::MemorySystem` reports to the
wrapper. -/
structure MemorySystem (Clock : Type) where
  /-- Result of `GetTCK()`. -/
  GetTCK : Clock
  /-- Result of `GetQueueSize()`. -/
  GetQueueSize : Nat
  /-- Result of `GetBusBits()`. -/
  GetBusBits : Nat
  /-- Result of `GetBurstLength()`. -/
  GetBurstLength : Nat

/-- The three calls of `fatal` in the constructor. -/
inductive Fatal where
  /-- Reached when the clock period is zero (failed to get clock). -/
  | clock : Fatal
  /-- Reached when the queue size is zero (failed to get queue size). -/
  | queueSize : Fatal
  /-- Reached when the bus bits or the burst length is zero (failed to get burst
  size). -/
  | burstSize : Fatal
deriving DecidableEq

/-- Data members of `DRAMSim3Wrapper` that the constructor computes. -/
structure DRAMSim3Wrapper (Clock : Type) where
  /-- The member `_clockPeriod`. -/
  _clockPeriod : Clock
  /-- The member `unsigned int _queueSize`. -/
  _queueSize : Nat
  /-- The member `unsigned int _burstSize`. -/
  _burstSize : Nat

variable {Clock : Type}

/-- The constructor `DRAMSim3Wrapper::DRAMSim3Wrapper`, given the memory system
it has created. -/
def DRAMSim3Wrapper.construct [ClockPeriod Clock] (dramsim : MemorySystem Clock) :
    Except Fatal (DRAMSim3Wrapper Clock) :=
  let _clockPeriod := dramsim.GetTCK
  if ClockPeriod.isZero _clockPeriod then Except.error Fatal.clock
  else
    let _queueSize := dramsim.GetQueueSize % RAS.wordMod
    if _queueSize = 0 then Except.error Fatal.queueSize
    else
      let dataBusBits := dramsim.GetBusBits % RAS.wordMod
      let burstLength := dramsim.GetBurstLength % RAS.wordMod
      if dataBusBits = 0 ∨ burstLength = 0 then Except.error Fatal.burstSize
      else
        Except.ok
          { _clockPeriod := _clockPeriod
            _queueSize := _queueSize
            _burstSize := dataBusBits * burstLength % RAS.wordMod / 8 }

/-- The accessor `DRAMSim3Wrapper::queueSize`. -/
def DRAMSim3Wrapper.queueSize (w : DRAMSim3Wrapper Clock) : Nat :=
  w._queueSize

/-- The accessor `DRAMSim3Wrapper::burstSize`. -/
def DRAMSim3Wrapper.burstSize (w : DRAMSim3Wrapper Clock) : Nat :=
  w._burstSize

end DRAMSim3

namespace RAS

variable {PC : Type}

/-! ## Auxiliary lemmas -/

theorem store_eq_some {stk : List PC} {i : Nat} (v : PC) (h : i < stk.length) :
    store stk i v = some (stk.set i v) := by
  simp [store, h]

theorem store_eq_none {stk : List PC} {i : Nat} (v : PC) (h : stk.length ≤ i) :
    store stk i v = none := by
  simp [store, Nat.not_lt.mpr h]

theorem length_resize [PCState PC] (stk : List PC) (n : Nat) :
    (resize stk n).length = n := by
  simp only [resize, List.length_append, List.length_take, List.length_replicate]
  omega

theorem resetLoop_eq [PCState PC] (stk : List PC) :
    ∀ n : Nat, n ≤ stk.length →
      resetLoop n stk = some (List.replicate n (PCState.zero : PC) ++ stk.drop n) := by
  intro n
  induction n with
  | zero => intro _; simp [resetLoop]
  | succ k ih =>
    intro hk
    have hk1 : k ≤ stk.length := by omega
    have ihk := ih hk1
    unfold resetLoop at ihk ⊢
    rw [List.range_succ, List.foldlM_append, ihk]
    have hlen : k < (List.replicate k (PCState.zero : PC) ++ stk.drop k).length := by
      simp only [List.length_append, List.length_replicate, List.length_drop]
      omega
    simp only [Option.bind_eq_bind, Option.some_bind, List.foldlM_cons, List.foldlM_nil,
      store_eq_some _ hlen, Option.bind_some]
    congr 1
    apply List.ext_getElem?
    intro i
    rcases Nat.lt_trichotomy i k with h | h | h
    · rw [List.getElem?_set_ne (by omega)]
      rw [List.getElem?_append_left (by simpa using h)]
      rw [List.getElem?_append_left (by simp; omega)]
      simp [List.getElem?_replicate, h, Nat.lt_succ_of_lt h]
    · subst h
      rw [List.getElem?_set_self hlen]
      rw [List.getElem?_append_left (by simp)]
      simp [List.getElem?_replicate]
    · rw [List.getElem?_set_ne (by omega)]
      rw [List.getElem?_append_right (by simp; omega)]
      rw [List.getElem?_append_right (by simp; omega)]
      simp only [List.length_replicate, List.getElem?_drop]
      congr 1
      omega

theorem resetLoop_full [PCState PC] (stk : List PC) :
    resetLoop stk.length stk = some (List.replicate stk.length (PCState.zero : PC)) := by
  rw [resetLoop_eq stk stk.length (Nat.le_refl _)]
  simp

theorem init_eq [PCState PC] (s0 : ReturnAddrStack PC) (C : Nat) :
    init s0 C = some ⟨C, List.replicate C PCState.zero, 0, 0⟩ := by
  unfold init reset
  have h := resetLoop_full (resize s0.addrStack C)
  rw [length_resize] at h
  simp [h]

theorem reset_eq [PCState PC] {C : Nat} {s : ReturnAddrStack PC}
    (hcap : s.numEntries = C) (hlen : s.addrStack.length = C) :
    reset s = some ⟨C, List.replicate C PCState.zero, 0, 0⟩ := by
  unfold reset
  have h := resetLoop_full s.addrStack
  rw [hlen] at h
  rw [hcap, h]
  simp [hcap]

theorem push_eq_some (v : PC) (s : ReturnAddrStack PC)
    (h : (s.tos + 1) % s.numEntries < s.addrStack.length) :
    push v s = some
      { numEntries := s.numEntries
        addrStack := s.addrStack.set ((s.tos + 1) % s.numEntries) v
        tos := (s.tos + 1) % s.numEntries
        usedEntries :=
          if s.usedEntries ≠ s.numEntries then (s.usedEntries + 1) % wordMod
          else s.usedEntries } := by
  unfold push incrTos
  simp only [store_eq_some v h, Option.map_some']
  by_cases hu : s.usedEntries = s.numEntries <;> simp [hu]

theorem restore_eq_some (t : Nat) (v : PC) (s : ReturnAddrStack PC)
    (h : t < s.addrStack.length) :
    restore t v s = some
      { numEntries := s.numEntries
        addrStack := s.addrStack.set t v
        tos := t
        usedEntries := s.usedEntries } := by
  unfold restore
  simp only [store_eq_some v h, Option.map_some']

theorem restore_eq_none (t : Nat) (v : PC) (s : ReturnAddrStack PC)
    (h : s.addrStack.length ≤ t) : restore t v s = none := by
  unfold restore
  simp only [store_eq_none v h, Option.map_none']

theorem Inv.incr_lt {C : Nat} {s : ReturnAddrStack PC} (hs : Inv C s) :
    (s.tos + 1) % s.numEntries < s.addrStack.length := by
  rw [hs.cap, hs.len]
  exact Nat.mod_lt _ (Nat.lt_of_le_of_lt (Nat.zero_le _) hs.top)

theorem Inv.pos {C : Nat} {s : ReturnAddrStack PC} (hs : Inv C s) : 0 < C :=
  Nat.lt_of_le_of_lt (Nat.zero_le _) hs.top

theorem Inv.pushOk {C : Nat} {s : ReturnAddrStack PC} (hs : Inv C s) (v : PC) :
    ∃ s', push v s = some s' ∧ Inv C s' := by
  refine ⟨_, push_eq_some v s hs.incr_lt, ?_⟩
  refine ⟨hs.cap, ?_, ?_, ?_⟩
  · simpa using hs.len
  · show (s.tos + 1) % s.numEntries < C
    rw [hs.cap]
    exact Nat.mod_lt _ hs.pos
  · show (if s.usedEntries ≠ s.numEntries then (s.usedEntries + 1) % wordMod
      else s.usedEntries) ≤ C
    have hu := hs.used
    have hc := hs.cap
    split
    · rename_i hne
      have : s.usedEntries + 1 ≤ C := by omega
      exact Nat.le_trans (Nat.mod_le _ _) this
    · exact hu

theorem Inv.popOk {C : Nat} {s : ReturnAddrStack PC} (hs : Inv C s) : Inv C (pop s) := by
  have hu := hs.used
  have ht := hs.top
  have hc := hs.cap
  unfold RAS.pop decrTos
  by_cases h0 : s.usedEntries > 0 <;> by_cases ht0 : s.tos = 0 <;>
    simp only [h0, ht0, if_true, if_false] <;>
    refine ⟨hc, hs.len, ?_, ?_⟩ <;> simp only [] <;> omega

theorem Inv.restoreOk {C : Nat} {s : ReturnAddrStack PC} (hs : Inv C s) {t : Nat}
    (ht : t < C) (v : PC) : ∃ s', restore t v s = some s' ∧ Inv C s' := by
  refine ⟨_, restore_eq_some t v s (by rw [hs.len]; exact ht), ?_⟩
  exact ⟨hs.cap, by simpa using hs.len, ht, hs.used⟩

theorem inv_fresh (PC : Type) [PCState PC] {C : Nat} (hC : 0 < C) :
    Inv C (⟨C, List.replicate C PCState.zero, 0, 0⟩ : ReturnAddrStack PC) :=
  ⟨rfl, by simp, hC, Nat.zero_le _⟩

theorem Inv.resetOk [PCState PC] {C : Nat} {s : ReturnAddrStack PC} (hs : Inv C s) :
    ∃ s', reset s = some s' ∧ Inv C s' :=
  ⟨_, reset_eq hs.cap hs.len, inv_fresh PC hs.pos⟩

/-- A step that returns a state keeps the invariant. -/
theorem Inv.ofStep [PCState PC] {C : Nat} {s s' : ReturnAddrStack PC} (hs : Inv C s)
    (op : Op PC) (h : step s op = some s') : Inv C s' := by
  cases op with
  | reset =>
    obtain ⟨s2, h2, hi⟩ := hs.resetOk
    have : s2 = s' := by simpa [RAS.step, h2] using h
    exact this ▸ hi
  | push v =>
    obtain ⟨s2, h2, hi⟩ := hs.pushOk v
    have : s2 = s' := by simpa [RAS.step, h2] using h
    exact this ▸ hi
  | pop =>
    have : RAS.pop s = s' := by simpa [RAS.step] using h
    exact this ▸ hs.popOk
  | restore t v =>
    by_cases ht : t < C
    · obtain ⟨s2, h2, hi⟩ := hs.restoreOk ht v
      have : s2 = s' := by simpa [RAS.step, h2] using h
      exact this ▸ hi
    · have hn : RAS.restore t v s = none :=
        restore_eq_none t v s (by rw [hs.len]; omega)
      simp [RAS.step, hn] at h

theorem run_nil [PCState PC] (s : ReturnAddrStack PC) : run s [] = some s := rfl

theorem run_cons [PCState PC] (s : ReturnAddrStack PC) (op : Op PC) (ops : List (Op PC)) :
    run s (op :: ops) = (step s op).bind fun s1 => run s1 ops := by
  simp [run, List.foldlM_cons]

theorem run_append [PCState PC] (s : ReturnAddrStack PC) (ops more : List (Op PC)) :
    run s (ops ++ more) = (run s ops).bind fun s1 => run s1 more := by
  simp [run, List.foldlM_append]

theorem Inv.ofRun [PCState PC] {C : Nat} (ops : List (Op PC)) :
    ∀ {s s' : ReturnAddrStack PC}, Inv C s → run s ops = some s' → Inv C s' := by
  induction ops with
  | nil =>
    intro s s' hs h
    have : s = s' := by simpa [run_nil] using h
    exact this ▸ hs
  | cons op ops ih =>
    intro s s' hs h
    rw [run_cons] at h
    cases h1 : RAS.step s op with
    | none => simp [h1] at h
    | some s1 =>
      rw [h1] at h
      exact ih (hs.ofStep op h1) (by simpa using h)

/-- Sequences whose restores stay below the capacity never leave the vector. -/
theorem Inv.runOk [PCState PC] {C : Nat} (ops : List (Op PC)) :
    ∀ {s : ReturnAddrStack PC}, Inv C s → RestoresBelow C ops →
      ∃ s', run s ops = some s' ∧ Inv C s' := by
  induction ops with
  | nil => intro s hs _; exact ⟨s, run_nil s, hs⟩
  | cons op ops ih =>
    intro s hs hr
    rw [run_cons]
    cases op with
    | reset =>
      obtain ⟨s1, h1, hi⟩ := hs.resetOk
      obtain ⟨s2, h2, hi2⟩ := ih hi (by simpa [RestoresBelow] using hr)
      exact ⟨s2, by simp [RAS.step, h1, h2], hi2⟩
    | push v =>
      obtain ⟨s1, h1, hi⟩ := hs.pushOk v
      obtain ⟨s2, h2, hi2⟩ := ih hi (by simpa [RestoresBelow] using hr)
      exact ⟨s2, by simp [RAS.step, h1, h2], hi2⟩
    | pop =>
      obtain ⟨s2, h2, hi2⟩ := ih hs.popOk (by simpa [RestoresBelow] using hr)
      exact ⟨s2, by simp [RAS.step, h2], hi2⟩
    | restore t v =>
      have hr2 : t < C ∧ RestoresBelow C ops := by simpa [RestoresBelow] using hr
      obtain ⟨s1, h1, hi⟩ := hs.restoreOk hr2.1 v
      obtain ⟨s2, h2, hi2⟩ := ih hi hr2.2
      exact ⟨s2, by simp [RAS.step, h1, h2], hi2⟩

theorem runFromInit_eq [PCState PC] (s0 : ReturnAddrStack PC) (C : Nat) (ops : List (Op PC)) :
    runFromInit s0 C ops = run ⟨C, List.replicate C PCState.zero, 0, 0⟩ ops := by
  simp [runFromInit, init_eq]

/-- Every reachable state satisfies the representation invariant. -/
theorem Reachable.inv [PCState PC] {C : Nat} {s : ReturnAddrStack PC} (hC : 0 < C)
    (h : Reachable C s) : Inv C s := by
  obtain ⟨s0, ops, hrun⟩ := h
  rw [runFromInit_eq] at hrun
  exact Inv.ofRun ops (inv_fresh PC hC) hrun

theorem mod_ne_of_lt_gap {C a b : Nat} (hab : a < b) (hgap : b - a < C) :
    a % C ≠ b % C := by
  intro h
  have hd : C ∣ b - a := (Nat.modEq_iff_dvd' (Nat.le_of_lt hab)).1 h
  have := Nat.le_of_dvd (by omega) hd
  omega

theorem pushAll_nil (s : ReturnAddrStack PC) : pushAll [] s = some s := rfl

theorem pushAll_cons (v : PC) (vs : List PC) (s : ReturnAddrStack PC) :
    pushAll (v :: vs) s = (push v s).bind fun s1 => pushAll vs s1 := by
  simp [pushAll, List.foldlM_cons]

theorem pushAll_snoc (vs : List PC) (v : PC) (s : ReturnAddrStack PC) :
    pushAll (vs ++ [v]) s = (pushAll vs s).bind fun s1 => push v s1 := by
  simp [pushAll, List.foldlM_append]

/-- What a run of pushes does to a state that satisfies the invariant: the cursor
advances by the number of pushes, each of the last `C` pushed values sits in its
own slot, and the occupancy saturates at `C`. -/
theorem pushAll_spec {C : Nat} (hC32 : C < wordMod) {s : ReturnAddrStack PC}
    (hs : Inv C s) (vs : List PC) :
    ∃ s', pushAll vs s = some s' ∧ Inv C s' ∧
      s'.tos = (s.tos + vs.length) % C ∧
      s'.usedEntries = min (s.usedEntries + vs.length) C ∧
      ∀ i : Nat, i < vs.length → vs.length - i ≤ C →
        s'.addrStack[(s.tos + i + 1) % C]? = vs[i]? := by
  induction vs using List.reverseRecOn with
  | nil =>
    refine ⟨s, pushAll_nil s, hs, ?_, ?_, ?_⟩
    · simp [Nat.mod_eq_of_lt hs.top]
    · simp [hs.used]
    · intro i hi; simp at hi
  | append_singleton vs v ih =>
    obtain ⟨s1, h1, hi1, htos, hused, hslots⟩ := ih
    have hpush := push_eq_some v s1 hi1.incr_lt
    rw [hi1.cap] at hpush
    have htos2 : (s1.tos + 1) % C = (s.tos + (vs.length + 1)) % C := by
      rw [htos, Nat.add_mod, Nat.mod_mod, ← Nat.add_mod]; rfl
    refine ⟨_, by rw [pushAll_snoc, h1]; exact hpush, ?_, ?_, ?_, ?_⟩
    · obtain ⟨s2, h2, hi2⟩ := hi1.pushOk v
      have : s2 = _ := Option.some.inj (h2.symm.trans hpush)
      exact this ▸ hi2
    · simpa using htos2
    · show (if s1.usedEntries ≠ C then (s1.usedEntries + 1) % wordMod else s1.usedEntries)
        = min (s.usedEntries + (vs ++ [v]).length) C
      have hu1 := hi1.used
      simp only [List.length_append, List.length_singleton]
      split
      · rename_i hne
        have hlt : s1.usedEntries + 1 < wordMod := by omega
        rw [Nat.mod_eq_of_lt hlt, hused]
        rw [hused] at hne hu1
        omega
      · rename_i heq
        have heq2 : s1.usedEntries = C := by simpa using heq
        rw [hused] at heq2 ⊢
        omega
    · intro i hi hgap
      simp only [List.length_append, List.length_singleton] at hi hgap
      show (s1.addrStack.set ((s1.tos + 1) % C) v)[(s.tos + i + 1) % C]? = (vs ++ [v])[i]?
      have hlt : (s1.tos + 1) % C < s1.addrStack.length := by
        rw [hi1.len]; exact Nat.mod_lt _ hi1.pos
      rcases Nat.lt_or_ge i vs.length with hlt2 | hge
      · have hne : (s1.tos + 1) % C ≠ (s.tos + i + 1) % C := by
          rw [htos2]
          exact (mod_ne_of_lt_gap (by omega) (by omega)).symm
        rw [List.getElem?_set_ne hne, hslots i hlt2 (by omega)]
        rw [List.getElem?_append_left hlt2]
      · have hieq : i = vs.length := by omega
        subst hieq
        have hidx : (s.tos + vs.length + 1) % C = (s1.tos + 1) % C := by
          rw [htos2]; rfl
        rw [hidx, List.getElem?_set_self hlt]
        simp

theorem pred_mod {C m : Nat} (hC : 0 < C) (hm : 1 ≤ m) :
    (m - 1) % C = if m % C = 0 then C - 1 else m % C - 1 := by
  have hr : (m - 1) % C < C := Nat.mod_lt _ hC
  have hstep : m % C = ((m - 1) % C + 1) % C := by
    rw [Nat.mod_add_mod]
    congr 1
    omega
  rcases Nat.lt_or_ge ((m - 1) % C + 1) C with h | h
  · rw [Nat.mod_eq_of_lt h] at hstep
    rw [hstep]
    simp
  · have hE : (m - 1) % C + 1 = C := by omega
    rw [hE, Nat.mod_self] at hstep
    rw [hstep]
    simp only [if_true]
    omega

theorem pop_addrStack (s : ReturnAddrStack PC) : (pop s).addrStack = s.addrStack := by
  unfold pop decrTos
  split <;> rfl

theorem pop_numEntries (s : ReturnAddrStack PC) : (pop s).numEntries = s.numEntries := by
  unfold pop decrTos
  split <;> rfl

theorem pop_usedEntries (s : ReturnAddrStack PC) :
    (pop s).usedEntries = s.usedEntries - 1 := by
  unfold pop decrTos
  split
  · rfl
  · show s.usedEntries = s.usedEntries - 1
    omega

theorem pop_tos (s : ReturnAddrStack PC) :
    (pop s).tos = if s.tos = 0 then s.numEntries - 1 else s.tos - 1 := by
  unfold pop decrTos
  split <;> rfl

theorem popN_spec {C : Nat} (j : Nat) :
    ∀ {s : ReturnAddrStack PC} {m : Nat}, Inv C s → s.tos = m % C → j ≤ m →
      (popN j s).tos = (m - j) % C ∧ (popN j s).addrStack = s.addrStack ∧
      (popN j s).usedEntries = s.usedEntries - j ∧ Inv C (popN j s) := by
  induction j with
  | zero =>
    intro s m hs ht _
    exact ⟨by simpa [popN] using ht, rfl, rfl, hs⟩
  | succ j ih =>
    intro s m hs ht hj
    have hpt : (pop s).tos = (m - 1) % C := by
      rw [pop_tos, pred_mod hs.pos (by omega), hs.cap, ht]
    obtain ⟨h1, h2, h3, h4⟩ := ih hs.popOk hpt (by omega)
    refine ⟨?_, ?_, ?_, ?_⟩
    · show (popN j (pop s)).tos = _
      rw [h1]; congr 1; omega
    · show (popN j (pop s)).addrStack = _
      rw [h2, pop_addrStack]
    · show (popN j (pop s)).usedEntries = _
      rw [h3, pop_usedEntries]; omega
    · exact h4

theorem slot_covered {C p : Nat} (hp : p < C) :
    ∃ i : Nat, 1 ≤ i ∧ i ≤ C ∧ (i + 1) % C = p := by
  rcases Nat.lt_or_ge p 2 with h2 | h2
  · rcases Nat.lt_or_ge C 2 with hc | hc
    · have hC1 : C = 1 := by omega
      have hp0 : p = 0 := by omega
      subst hC1; subst hp0
      exact ⟨1, by omega, by omega, by simp⟩
    · rcases Nat.eq_zero_or_pos p with hp0 | hp1
      · subst hp0
        refine ⟨C - 1, by omega, by omega, ?_⟩
        have : C - 1 + 1 = C := by omega
        rw [this, Nat.mod_self]
      · have hp1 : p = 1 := by omega
        subst hp1
        refine ⟨C, by omega, by omega, ?_⟩
        rw [Nat.add_mod_left, Nat.mod_eq_of_lt hc]
  · exact ⟨p - 1, by omega, by omega, by
      have : p - 1 + 1 = p := by omega
      rw [this, Nat.mod_eq_of_lt hp]⟩

/-! ## The claims -/

/-- C1. Restore exactness: for a stack of capacity `C > 0` in any state `s`
reachable after `init(C)`, whatever pushes, pops and other calls `between` are
made afterwards, `restore(t, v)` with `t < C` returns a state whose cursor is `t`
and whose top slot holds `v`. -/
theorem restore_exact [PCState PC] (C : Nat) (hC : 0 < C) (s : ReturnAddrStack PC)
    (hs : Reachable C s) (between : List (Op PC)) (hb : RestoresBelow C between)
    (t : Nat) (ht : t < C) (v : PC) :
    ∃ s2 s3, run s between = some s2 ∧ restore t v s2 = some s3 ∧
      s3.tos = t ∧ s3.addrStack[s3.tos]? = some v := by
  obtain ⟨s2, h2, hi2⟩ := Inv.runOk between (hs.inv hC) hb
  have hlt : t < s2.addrStack.length := by rw [hi2.len]; exact ht
  refine ⟨s2, _, h2, restore_eq_some t v s2 hlt, rfl, ?_⟩
  show (s2.addrStack.set t v)[t]? = some v
  rw [List.getElem?_set_self hlt]

/-- Witness for C1: capacity 2, checkpoint `(1, 7)` taken after the first push,
restored after a further push and two pops. -/
theorem restore_exact_witness :
    ∃ s2 s3, run (⟨2, [0, 7], 1, 1⟩ : ReturnAddrStack Nat) [Op.push 8, Op.pop, Op.pop] = some s2 ∧
      restore 1 7 s2 = some s3 ∧ s3.tos = 1 ∧ s3.addrStack[s3.tos]? = some 7 :=
  restore_exact 2 (by decide) ⟨2, [0, 7], 1, 1⟩ ⟨blank, [Op.push 7], by decide⟩
    [Op.push 8, Op.pop, Op.pop] (by simp [RestoresBelow]) 1 (by decide) 7

/-- C2. LIFO within capacity: after `init(C)`, pushing the `N` values `vs`
(`N ≤ C`, and `1 ≤ N` because `j < N`) and popping `j < N` times leaves `usedEntries = N - j` and the
value `vs[N - j - 1]` (the `(N - j)`-th pushed value) at the top. -/
theorem lifo_within_capacity [PCState PC] (C : Nat) (hC : 0 < C) (hC32 : C < wordMod)
    (s0 : ReturnAddrStack PC) (vs : List PC) (hN : vs.length ≤ C)
    (j : Nat) (hj : j < vs.length) :
    ∃ sI sP x, init s0 C = some sI ∧ pushAll vs sI = some sP ∧
      (popN j sP).usedEntries = vs.length - j ∧
      vs[vs.length - j - 1]? = some x ∧ topValue (popN j sP) = some x := by
  obtain ⟨sP, hP, hiP, htos, hused, hslots⟩ :=
    pushAll_spec hC32 (inv_fresh PC hC) vs
  have hpop := popN_spec j hiP (by simpa using htos) (Nat.le_of_lt hj)
  obtain ⟨ht, ha, hu, _⟩ := hpop
  have hidx : vs.length - j - 1 < vs.length := by omega
  refine ⟨_, sP, vs[vs.length - j - 1], init_eq s0 C, hP, ?_, ?_, ?_⟩
  · rw [hu, hused]
    simp only [Nat.zero_add]
    omega
  · exact List.getElem?_eq_getElem hidx
  · unfold topValue
    rw [ha, ht]
    have h := hslots (vs.length - j - 1) hidx (by omega)
    have he : 0 + (vs.length - j - 1) + 1 = vs.length - j := by omega
    simp only [he] at h
    rw [h]
    exact List.getElem?_eq_getElem hidx

/-- Witness for C2: the scenario `init(2); push X; push Y; pop` with `X = 7`,
`Y = 9`. -/
theorem lifo_within_capacity_witness :
    ∃ sI sP x, init (blank : ReturnAddrStack Nat) 2 = some sI ∧ pushAll [7, 9] sI = some sP ∧
      (popN 1 sP).usedEntries = [7, 9].length - 1 ∧
      [7, 9][[7, 9].length - 1 - 1]? = some x ∧ topValue (popN 1 sP) = some x :=
  lifo_within_capacity 2 (by decide) (by decide) blank [7, 9] (by decide) 1 (by decide)

/-- C3. After `init(C)` with `C > 0`, pushing `N ≤ C` values `vs` gives
`usedEntries = N`, and when `N ≥ 1` the value at the top is the last value
pushed. -/
theorem pushes_within_capacity [PCState PC] (C : Nat) (hC : 0 < C) (hC32 : C < wordMod)
    (s0 : ReturnAddrStack PC) (vs : List PC) (hN : vs.length ≤ C) :
    ∃ sI sP, init s0 C = some sI ∧ pushAll vs sI = some sP ∧
      sP.usedEntries = vs.length ∧
      (1 ≤ vs.length → ∃ x, vs.getLast? = some x ∧ topValue sP = some x) := by
  obtain ⟨sP, hP, hiP, htos, hused, hslots⟩ :=
    pushAll_spec hC32 (inv_fresh PC hC) vs
  refine ⟨_, sP, init_eq s0 C, hP, ?_, ?_⟩
  · rw [hused]
    simp only [Nat.zero_add]
    omega
  · intro h1
    have hidx : vs.length - 1 < vs.length := by omega
    refine ⟨vs[vs.length - 1], ?_, ?_⟩
    · rw [List.getLast?_eq_getElem?]
      exact List.getElem?_eq_getElem hidx
    · unfold topValue
      have h := hslots (vs.length - 1) hidx (by omega)
      have he : 0 + (vs.length - 1) + 1 = 0 + vs.length := by omega
      simp only [he] at h
      rw [htos, h]
      exact List.getElem?_eq_getElem hidx

/-- Witness for C3: capacity 3, two pushes. -/
theorem pushes_within_capacity_witness :
    ∃ sI sP, init (blank : ReturnAddrStack Nat) 3 = some sI ∧ pushAll [4, 5] sI = some sP ∧
      sP.usedEntries = [4, 5].length ∧
      (1 ≤ [4, 5].length → ∃ x, [4, 5].getLast? = some x ∧ topValue sP = some x) :=
  pushes_within_capacity 3 (by decide) (by decide) blank [4, 5] (by decide)

/-- C4. Saturation and eviction: after `init(C)` with `C > 0`, pushing `C + 1`
pairwise distinct values `v1 :: rest` leaves `usedEntries = C`, no slot holds
`v1` any more, and the last push wrote the slot that the first push had
written.  (That the values differ from the neutral value is not needed.) -/
theorem saturation_eviction [PCState PC] (C : Nat) (hC : 0 < C) (hC32 : C < wordMod)
    (s0 : ReturnAddrStack PC) (v1 : PC) (rest : List PC) (hlen : rest.length = C)
    (hnd : (v1 :: rest).Nodup) :
    ∃ sI s1 sP, init s0 C = some sI ∧ push v1 sI = some s1 ∧ pushAll rest s1 = some sP ∧
      sP.usedEntries = C ∧ v1 ∉ sP.addrStack ∧
      s1.addrStack[s1.tos]? = some v1 ∧ sP.tos = s1.tos ∧
      sP.addrStack[sP.tos]? = rest.getLast? := by
  have hfresh := inv_fresh PC hC
  obtain ⟨sP, hP, hiP, htos, hused, hslots⟩ := pushAll_spec hC32 hfresh (v1 :: rest)
  have hpush := push_eq_some v1 _ hfresh.incr_lt
  rw [pushAll_cons, hpush] at hP
  simp only [Option.some_bind, Nat.zero_add] at hP
  simp only [List.length_cons, hlen, Nat.zero_add] at htos hused hslots
  have h1C : 1 % C < (List.replicate C (PCState.zero : PC)).length := by
    simpa using Nat.mod_lt 1 hC
  refine ⟨_, _, sP, init_eq s0 C, hpush, hP, ?_, ?_, ?_, ?_, ?_⟩
  · rw [hused]; omega
  · intro hmem
    obtain ⟨p, hp⟩ := List.getElem?_of_mem hmem
    have hpC : p < C := by
      have := (List.getElem?_eq_some_iff.1 hp).1
      rwa [hiP.len] at this
    obtain ⟨i, hi1, hiC, hip⟩ := slot_covered hpC
    have h := hslots i (by omega) (by omega)
    rw [hip, hp] at h
    obtain ⟨k, rfl⟩ : ∃ k, i = k + 1 := ⟨i - 1, by omega⟩
    rw [List.getElem?_cons_succ] at h
    exact (List.nodup_cons.1 hnd).1 (List.mem_iff_getElem?.2 ⟨k, h.symm⟩)
  · show ((List.replicate C (PCState.zero : PC)).set (1 % C) v1)[1 % C]? = some v1
    rw [List.getElem?_set_self h1C]
  · show sP.tos = 1 % C
    rw [htos, Nat.add_mod_left]
  · have h := hslots C (by omega) (by omega)
    rw [htos, h]
    obtain ⟨k, hk⟩ : ∃ k, C = k + 1 := ⟨C - 1, by omega⟩
    rw [List.getLast?_eq_getElem?, hlen]
    simp only [hk, List.getElem?_cons_succ, Nat.add_sub_cancel]

/-- Witness for C4: capacity 2 and the three values 5, 6, 7. -/
theorem saturation_eviction_witness :
    ∃ sI s1 sP, init (blank : ReturnAddrStack Nat) 2 = some sI ∧ push 5 sI = some s1 ∧
      pushAll [6, 7] s1 = some sP ∧
      sP.usedEntries = 2 ∧ 5 ∉ sP.addrStack ∧
      s1.addrStack[s1.tos]? = some 5 ∧ sP.tos = s1.tos ∧
      sP.addrStack[sP.tos]? = [6, 7].getLast? :=
  saturation_eviction 2 (by decide) (by decide) blank 5 [6, 7] rfl (by decide)

/-- C5, as stated, fails for capacity 1: the single slot is both the pre-push top
and the slot `push` writes.  After `init(1)` the state `⟨1, [0], 0, 0⟩` is
reachable; `push(5)` then `pop()` brings the cursor back to 0, but the top slot
now holds 5, not the 0 it held before the push. -/
theorem push_pop_round_trip_counterexample :
    Reachable 1 (⟨1, [0], 0, 0⟩ : ReturnAddrStack Nat) ∧
      ¬ ∃ s1, push 5 (⟨1, [0], 0, 0⟩ : ReturnAddrStack Nat) = some s1 ∧
          (pop s1).tos = (⟨1, [0], 0, 0⟩ : ReturnAddrStack Nat).tos ∧
          topValue (pop s1) = topValue (⟨1, [0], 0, 0⟩ : ReturnAddrStack Nat) := by
  refine ⟨⟨blank, [], by decide⟩, ?_⟩
  rintro ⟨s1, h1, _, h3⟩
  have hp : push 5 (⟨1, [0], 0, 0⟩ : ReturnAddrStack Nat) = some ⟨1, [5], 0, 1⟩ := by decide
  rw [hp] at h1
  have : s1 = ⟨1, [5], 0, 1⟩ := (Option.some.inj h1).symm
  subst this
  revert h3
  decide

/-- C5, amended. Push/pop round trip: for every capacity `C > 0`, every state
reachable after `init(C)` and every value `v`, `push(v)` followed by `pop()`
returns the cursor to its pre-push position; when `C ≥ 2` the value at that top
slot is the one stored there before the push, and when `C = 1` it is `v`. -/
theorem push_pop_round_trip [PCState PC] (C : Nat) (hC : 0 < C) (s : ReturnAddrStack PC)
    (hs : Reachable C s) (v : PC) :
    ∃ s1, push v s = some s1 ∧ (pop s1).tos = s.tos ∧
      (2 ≤ C → topValue (pop s1) = topValue s) ∧
      (C = 1 → topValue (pop s1) = some v) := by
  have hi := hs.inv hC
  have hpush := push_eq_some v s hi.incr_lt
  have ht := hi.top
  have hlt : (s.tos + 1) % C < s.addrStack.length := by
    rw [hi.len]; exact Nat.mod_lt _ hC
  have hback : (if (s.tos + 1) % C = 0 then C - 1 else (s.tos + 1) % C - 1) = s.tos := by
    rcases Nat.lt_or_ge (s.tos + 1) C with h | h
    · rw [Nat.mod_eq_of_lt h]; simp
    · have hE : s.tos + 1 = C := by omega
      rw [hE, Nat.mod_self]; simp; omega
  rw [hi.cap] at hpush
  refine ⟨_, hpush, ?_, ?_, ?_⟩
  · rw [pop_tos]
    exact hback
  · intro h2
    unfold topValue
    rw [pop_addrStack, pop_tos]
    show (s.addrStack.set ((s.tos + 1) % C) v)[if (s.tos + 1) % C = 0 then C - 1
      else (s.tos + 1) % C - 1]? = s.addrStack[s.tos]?
    rw [hback]
    have hne : (s.tos + 1) % C ≠ s.tos := by
      have := mod_ne_of_lt_gap (C := C) (Nat.lt_succ_self s.tos) (by omega)
      rw [Nat.mod_eq_of_lt ht] at this
      exact fun h => this h.symm
    rw [List.getElem?_set_ne hne]
  · intro h1
    unfold topValue
    rw [pop_addrStack, pop_tos]
    show (s.addrStack.set ((s.tos + 1) % C) v)[if (s.tos + 1) % C = 0 then C - 1
      else (s.tos + 1) % C - 1]? = some v
    rw [hback]
    have h0 : s.tos = 0 := by omega
    have hm : (s.tos + 1) % C = s.tos := by rw [h0, h1]
    rw [hm] at hlt ⊢
    rw [List.getElem?_set_self hlt]

/-- Witness for the amended C5: capacity 2, after one push. -/
theorem push_pop_round_trip_witness :
    ∃ s1, push 9 (⟨2, [0, 7], 1, 1⟩ : ReturnAddrStack Nat) = some s1 ∧
      (pop s1).tos = (⟨2, [0, 7], 1, 1⟩ : ReturnAddrStack Nat).tos ∧
      (2 ≤ 2 → topValue (pop s1) = topValue (⟨2, [0, 7], 1, 1⟩ : ReturnAddrStack Nat)) ∧
      (2 = 1 → topValue (pop s1) = some 9) :=
  push_pop_round_trip 2 (by decide) ⟨2, [0, 7], 1, 1⟩ ⟨blank, [Op.push 7], by decide⟩ 9

/-- C6. After `init(C)` with `C > 0` and `N` pushes, `1 ≤ N ≤ C`, a `pop()`
leaves `usedEntries = N - 1` and moves the cursor back by one position
circularly: the new `tos` is `C - 1` when the old one was 0 and the old one
minus 1 otherwise (the cursor goes from `N mod C` to `(N - 1) mod C`). -/
theorem pop_after_pushes [PCState PC] (C : Nat) (hC : 0 < C) (hC32 : C < wordMod)
    (s0 : ReturnAddrStack PC) (vs : List PC) (hN1 : 1 ≤ vs.length) (hN : vs.length ≤ C) :
    ∃ sI sP, init s0 C = some sI ∧ pushAll vs sI = some sP ∧
      (pop sP).usedEntries = vs.length - 1 ∧
      (pop sP).tos = (if sP.tos = 0 then C - 1 else sP.tos - 1) ∧
      sP.tos = vs.length % C ∧ (pop sP).tos = (vs.length - 1) % C := by
  obtain ⟨sP, hP, hiP, htos, hused, _⟩ :=
    pushAll_spec hC32 (inv_fresh PC hC) vs
  simp only [Nat.zero_add] at htos hused
  refine ⟨_, sP, init_eq s0 C, hP, ?_, ?_, htos, ?_⟩
  · rw [pop_usedEntries, hused]; omega
  · rw [pop_tos, hiP.cap]
  · rw [pop_tos, hiP.cap, htos, pred_mod hC hN1]

/-- Witness for C6: capacity 2, two pushes, so the cursor wraps from 0 to 1. -/
theorem pop_after_pushes_witness :
    ∃ sI sP, init (blank : ReturnAddrStack Nat) 2 = some sI ∧ pushAll [7, 9] sI = some sP ∧
      (pop sP).usedEntries = [7, 9].length - 1 ∧
      (pop sP).tos = (if sP.tos = 0 then 2 - 1 else sP.tos - 1) ∧
      sP.tos = [7, 9].length % 2 ∧ (pop sP).tos = ([7, 9].length - 1) % 2 :=
  pop_after_pushes 2 (by decide) (by decide) blank [7, 9] (by decide) (by decide)

/-- C7. For every capacity `C > 0`, `init(C)` returns a state with
`usedEntries = 0`, `tos = 0`, capacity `C` and a buffer of exactly `C` slots all
holding the neutral value; so does `reset()` from every reachable state `s`. -/
theorem init_and_reset_state [PCState PC] (C : Nat) (hC : 0 < C) (s0 : ReturnAddrStack PC)
    (s : ReturnAddrStack PC) (hs : Reachable C s) :
    (∃ sI, init s0 C = some sI ∧ sI.usedEntries = 0 ∧ sI.tos = 0 ∧ sI.numEntries = C ∧
        sI.addrStack.length = C ∧ ∀ x ∈ sI.addrStack, x = PCState.zero) ∧
    ∃ sR, reset s = some sR ∧ sR.usedEntries = 0 ∧ sR.tos = 0 ∧ sR.numEntries = C ∧
        sR.addrStack.length = C ∧ ∀ x ∈ sR.addrStack, x = PCState.zero := by
  have hi := hs.inv hC
  exact ⟨⟨_, init_eq s0 C, rfl, rfl, rfl, by simp, fun x hx => (List.mem_replicate.1 hx).2⟩,
    ⟨_, reset_eq hi.cap hi.len, rfl, rfl, rfl, by simp,
      fun x hx => (List.mem_replicate.1 hx).2⟩⟩

/-- Witness for C7: capacity 3; `init` on an object with stale members, and
`reset` from the state reached by two pushes and three pops. -/
theorem init_and_reset_state_witness :
    (∃ sI, init (⟨7, [1, 2, 3, 4, 5], 9, 9⟩ : ReturnAddrStack Nat) 3 = some sI ∧
        sI.usedEntries = 0 ∧ sI.tos = 0 ∧ sI.numEntries = 3 ∧
        sI.addrStack.length = 3 ∧ ∀ x ∈ sI.addrStack, x = PCState.zero) ∧
    ∃ sR, reset (⟨3, [0, 4, 5], 2, 0⟩ : ReturnAddrStack Nat) = some sR ∧
        sR.usedEntries = 0 ∧ sR.tos = 0 ∧ sR.numEntries = 3 ∧
        sR.addrStack.length = 3 ∧ ∀ x ∈ sR.addrStack, x = PCState.zero :=
  init_and_reset_state 3 (by decide) ⟨7, [1, 2, 3, 4, 5], 9, 9⟩ ⟨3, [0, 4, 5], 2, 0⟩
    ⟨blank, [Op.push 4, Op.push 5, Op.pop, Op.pop, Op.pop], by decide⟩

/-- C8, as stated, fails: `restore` stores the index it is given without
checking it.  After `init(2)`, `restore(5, 7)` assigns `tos = 5` and then
subscripts slot 5 of a two-slot vector, so no state with `tos < 2` results. -/
theorem cursor_invariant_counterexample :
    ¬ ∃ s : ReturnAddrStack Nat,
        runFromInit blank 2 [Op.restore 5 7] = some s ∧ s.tos < 2 := by
  rintro ⟨s, h, _⟩
  have hn : runFromInit (blank : ReturnAddrStack Nat) 2 [Op.restore 5 7] = none := by decide
  rw [hn] at h
  exact Option.noConfusion h

/-- C8, amended. Cursor invariant: after `init(C)` with `C > 0`, every finite
sequence of reset, push, pop and restore calls in which each restore is given
an index below `C` runs to a state with `tos < C`. -/
theorem cursor_invariant [PCState PC] (C : Nat) (hC : 0 < C) (s0 : ReturnAddrStack PC)
    (ops : List (Op PC)) (hr : RestoresBelow C ops) :
    ∃ s, runFromInit s0 C ops = some s ∧ s.tos < C := by
  obtain ⟨s, h, hi⟩ := Inv.runOk ops (inv_fresh PC hC) hr
  exact ⟨s, by rw [runFromInit_eq]; exact h, hi.top⟩

/-- Witness for the amended C8: capacity 2, with an over-pop and a restore. -/
theorem cursor_invariant_witness :
    ∃ s, runFromInit (blank : ReturnAddrStack Nat) 2
        [Op.pop, Op.push 3, Op.push 4, Op.push 5, Op.restore 1 8, Op.reset, Op.pop] = some s ∧
      s.tos < 2 :=
  cursor_invariant 2 (by decide) blank
    [Op.pop, Op.push 3, Op.push 4, Op.push 5, Op.restore 1 8, Op.reset, Op.pop]
    (by simp [RestoresBelow])

/-- C9. Occupancy invariant: after `init(C)` with `C > 0`, every sequence `ops`
of reset, push, pop and restore calls whose restores stay inside the buffer runs
to a state with `usedEntries ≤ C`, and every reachable state `s` has
`usedEntries ≤ C`; on a reachable state `push` raises `usedEntries` by 0 or 1
and `pop` lowers it by 0 or 1. -/
theorem occupancy_invariant [PCState PC] (C : Nat) (hC : 0 < C) (hC32 : C < wordMod)
    (s0 : ReturnAddrStack PC) (ops : List (Op PC)) (hr : RestoresBelow C ops)
    (s : ReturnAddrStack PC) (hs : Reachable C s) (v : PC) :
    (∃ sE, runFromInit s0 C ops = some sE ∧ sE.usedEntries ≤ C) ∧
    s.usedEntries ≤ C ∧
    (∃ s1, push v s = some s1 ∧
      s.usedEntries ≤ s1.usedEntries ∧ s1.usedEntries ≤ s.usedEntries + 1) ∧
    (pop s).usedEntries ≤ s.usedEntries ∧ s.usedEntries ≤ (pop s).usedEntries + 1 := by
  have hi := hs.inv hC
  have hu := hi.used
  refine ⟨?_, hu, ?_, ?_, ?_⟩
  · obtain ⟨sE, h, hiE⟩ := Inv.runOk ops (inv_fresh PC hC) hr
    exact ⟨sE, by rw [runFromInit_eq]; exact h, hiE.used⟩
  · refine ⟨_, push_eq_some v s hi.incr_lt, ?_, ?_⟩
    · show s.usedEntries ≤
        (if s.usedEntries ≠ s.numEntries then (s.usedEntries + 1) % wordMod
          else s.usedEntries)
      split
      · rename_i hne
        rw [hi.cap] at hne
        rw [Nat.mod_eq_of_lt (by omega)]
        omega
      · exact Nat.le_refl _
    · show (if s.usedEntries ≠ s.numEntries then (s.usedEntries + 1) % wordMod
          else s.usedEntries) ≤ s.usedEntries + 1
      split
      · exact Nat.mod_le _ _
      · omega
  · rw [pop_usedEntries]; omega
  · rw [pop_usedEntries]; omega

/-- Witness for C9: capacity 2; a sequence that over-pops, fills the buffer and
pushes once more, and the full state `⟨2, [9, 7], 0, 2⟩`. -/
theorem occupancy_invariant_witness :
    (∃ sE, runFromInit (blank : ReturnAddrStack Nat) 2
        [Op.pop, Op.push 3, Op.push 4, Op.push 5, Op.restore 1 8, Op.pop] = some sE ∧
      sE.usedEntries ≤ 2) ∧
    (⟨2, [9, 7], 0, 2⟩ : ReturnAddrStack Nat).usedEntries ≤ 2 ∧
    (∃ s1, push 4 (⟨2, [9, 7], 0, 2⟩ : ReturnAddrStack Nat) = some s1 ∧
      (⟨2, [9, 7], 0, 2⟩ : ReturnAddrStack Nat).usedEntries ≤ s1.usedEntries ∧
      s1.usedEntries ≤ (⟨2, [9, 7], 0, 2⟩ : ReturnAddrStack Nat).usedEntries + 1) ∧
    (pop (⟨2, [9, 7], 0, 2⟩ : ReturnAddrStack Nat)).usedEntries
      ≤ (⟨2, [9, 7], 0, 2⟩ : ReturnAddrStack Nat).usedEntries ∧
    (⟨2, [9, 7], 0, 2⟩ : ReturnAddrStack Nat).usedEntries
      ≤ (pop (⟨2, [9, 7], 0, 2⟩ : ReturnAddrStack Nat)).usedEntries + 1 :=
  occupancy_invariant 2 (by decide) (by decide) blank
    [Op.pop, Op.push 3, Op.push 4, Op.push 5, Op.restore 1 8, Op.pop]
    (by simp [RestoresBelow]) ⟨2, [9, 7], 0, 2⟩ ⟨blank, [Op.push 7, Op.push 9], by decide⟩ 4

/-- C10. Single push step: on every state reachable after `init(C)`, `C > 0`,
`push(v)` sets `tos` to `(tos + 1) mod C`, stores `v` in that slot, leaves every
other slot, the capacity and the number of slots unchanged, and adds 1 to
`usedEntries` when it was below `C` and leaves it unchanged otherwise; the
test `usedEntries != numEntries` of the code holds exactly when
`usedEntries < C`. -/
theorem push_step [PCState PC] (C : Nat) (hC : 0 < C) (hC32 : C < wordMod)
    (s : ReturnAddrStack PC) (hs : Reachable C s) (v : PC) :
    s.tos < C ∧ s.usedEntries ≤ C ∧
    (s.usedEntries ≠ s.numEntries ↔ s.usedEntries < C) ∧
    ∃ s1, push v s = some s1 ∧
      s1.tos = (s.tos + 1) % C ∧
      s1.addrStack[s1.tos]? = some v ∧
      (∀ p : Nat, p ≠ s1.tos → s1.addrStack[p]? = s.addrStack[p]?) ∧
      s1.addrStack.length = s.addrStack.length ∧
      s1.numEntries = s.numEntries ∧
      s1.usedEntries = (if s.usedEntries < C then s.usedEntries + 1 else s.usedEntries) := by
  have hi := hs.inv hC
  have hu := hi.used
  have hcap := hi.cap
  have hlt : (s.tos + 1) % C < s.addrStack.length := by
    rw [hi.len]; exact Nat.mod_lt _ hC
  have hpush := push_eq_some v s hi.incr_lt
  rw [hcap] at hpush
  refine ⟨hi.top, hu, ?_, _, hpush, rfl, ?_, ?_, ?_, hcap.symm, ?_⟩
  · rw [hcap]; omega
  · show (s.addrStack.set ((s.tos + 1) % C) v)[(s.tos + 1) % C]? = some v
    rw [List.getElem?_set_self hlt]
  · intro p hp
    show (s.addrStack.set ((s.tos + 1) % C) v)[p]? = s.addrStack[p]?
    exact List.getElem?_set_ne (fun h => hp h.symm)
  · show (s.addrStack.set ((s.tos + 1) % C) v).length = s.addrStack.length
    simp
  · show (if s.usedEntries ≠ C then (s.usedEntries + 1) % wordMod else s.usedEntries)
      = (if s.usedEntries < C then s.usedEntries + 1 else s.usedEntries)
    by_cases h : s.usedEntries < C
    · have hne : s.usedEntries ≠ C := by omega
      rw [if_pos hne, if_pos h, Nat.mod_eq_of_lt (by omega)]
    · have he : ¬ s.usedEntries ≠ C := by omega
      rw [if_neg he, if_neg h]

/-- Witness for C10: capacity 2 with the buffer already full, so the push wraps
the cursor and leaves the occupancy at 2. -/
theorem push_step_witness :
    (⟨2, [9, 7], 0, 2⟩ : ReturnAddrStack Nat).tos < 2 ∧
    (⟨2, [9, 7], 0, 2⟩ : ReturnAddrStack Nat).usedEntries ≤ 2 ∧
    ((⟨2, [9, 7], 0, 2⟩ : ReturnAddrStack Nat).usedEntries
        ≠ (⟨2, [9, 7], 0, 2⟩ : ReturnAddrStack Nat).numEntries ↔
      (⟨2, [9, 7], 0, 2⟩ : ReturnAddrStack Nat).usedEntries < 2) ∧
    ∃ s1, push 4 (⟨2, [9, 7], 0, 2⟩ : ReturnAddrStack Nat) = some s1 ∧
      s1.tos = ((⟨2, [9, 7], 0, 2⟩ : ReturnAddrStack Nat).tos + 1) % 2 ∧
      s1.addrStack[s1.tos]? = some 4 ∧
      (∀ p : Nat, p ≠ s1.tos →
        s1.addrStack[p]? = (⟨2, [9, 7], 0, 2⟩ : ReturnAddrStack Nat).addrStack[p]?) ∧
      s1.addrStack.length = (⟨2, [9, 7], 0, 2⟩ : ReturnAddrStack Nat).addrStack.length ∧
      s1.numEntries = (⟨2, [9, 7], 0, 2⟩ : ReturnAddrStack Nat).numEntries ∧
      s1.usedEntries =
        (if (⟨2, [9, 7], 0, 2⟩ : ReturnAddrStack Nat).usedEntries < 2
          then (⟨2, [9, 7], 0, 2⟩ : ReturnAddrStack Nat).usedEntries + 1
          else (⟨2, [9, 7], 0, 2⟩ : ReturnAddrStack Nat).usedEntries) :=
  push_step 2 (by decide) (by decide) ⟨2, [9, 7], 0, 2⟩
    ⟨blank, [Op.push 7, Op.push 9], by decide⟩ 4

/-- C11. Wraparound: after `init(C)` with `C > 0`, pushing `k ≥ 1` values `vs`
leaves `tos = k mod C` with the last pushed value at the top; with `C = 3`,
pushing `a, b, c, d` puts the cursor at 1, 2, 0, 1 in turn, each time with the
value just pushed at the top, and `d` lands in slot 1, the slot that held `a`. -/
theorem wraparound [PCState PC] (C : Nat) (hC : 0 < C) (hC32 : C < wordMod)
    (s0 : ReturnAddrStack PC) (vs : List PC) (hk : 1 ≤ vs.length) (a b c d : PC) :
    (∃ sI sP x, init s0 C = some sI ∧ pushAll vs sI = some sP ∧
      sP.tos = vs.length % C ∧ vs.getLast? = some x ∧ topValue sP = some x) ∧
    ∃ sI s1 s2 s3 s4, init s0 3 = some sI ∧ push a sI = some s1 ∧ push b s1 = some s2 ∧
      push c s2 = some s3 ∧ push d s3 = some s4 ∧
      s1.tos = 1 ∧ topValue s1 = some a ∧ s2.tos = 2 ∧ topValue s2 = some b ∧
      s3.tos = 0 ∧ topValue s3 = some c ∧ s4.tos = 1 ∧ topValue s4 = some d ∧
      s1.addrStack[1]? = some a ∧ s4.addrStack[1]? = some d := by
  constructor
  · obtain ⟨sP, hP, _, htos, _, hslots⟩ := pushAll_spec hC32 (inv_fresh PC hC) vs
    simp only [Nat.zero_add] at htos hslots
    have hidx : vs.length - 1 < vs.length := by omega
    refine ⟨_, sP, vs[vs.length - 1], init_eq s0 C, hP, htos, ?_, ?_⟩
    · rw [List.getLast?_eq_getElem?]
      exact List.getElem?_eq_getElem hidx
    · unfold topValue
      have h := hslots (vs.length - 1) hidx (by omega)
      have he : vs.length - 1 + 1 = vs.length := by omega
      rw [he] at h
      rw [htos, h]
      exact List.getElem?_eq_getElem hidx
  · refine ⟨⟨3, List.replicate 3 PCState.zero, 0, 0⟩,
      ⟨3, [PCState.zero, a, PCState.zero], 1, 1⟩, ⟨3, [PCState.zero, a, b], 2, 2⟩,
      ⟨3, [c, a, b], 0, 3⟩, ⟨3, [c, d, b], 1, 3⟩, init_eq s0 3, ?_, ?_, ?_, ?_,
      rfl, rfl, rfl, rfl, rfl, rfl, rfl, rfl, rfl, rfl⟩ <;>
      simp [push, incrTos, store]

/-- Witness for C11: capacity 3 and the four values 10, 11, 12, 13. -/
theorem wraparound_witness :
    (∃ sI sP x, init (blank : ReturnAddrStack Nat) 3 = some sI ∧
      pushAll [10, 11, 12, 13] sI = some sP ∧
      sP.tos = [10, 11, 12, 13].length % 3 ∧ [10, 11, 12, 13].getLast? = some x ∧
      topValue sP = some x) ∧
    ∃ sI s1 s2 s3 s4, init (blank : ReturnAddrStack Nat) 3 = some sI ∧
      push 10 sI = some s1 ∧ push 11 s1 = some s2 ∧
      push 12 s2 = some s3 ∧ push 13 s3 = some s4 ∧
      s1.tos = 1 ∧ topValue s1 = some 10 ∧ s2.tos = 2 ∧ topValue s2 = some 11 ∧
      s3.tos = 0 ∧ topValue s3 = some 12 ∧ s4.tos = 1 ∧ topValue s4 = some 13 ∧
      s1.addrStack[1]? = some 10 ∧ s4.addrStack[1]? = some 13 :=
  wraparound 3 (by decide) (by decide) blank [10, 11, 12, 13] (by decide) 10 11 12 13

/-- C12. Over-pop: on every state reachable after `init(C)`, `C > 0`, whose
`usedEntries` is 0, `pop()` returns normally, leaves `usedEntries` at 0 and the
buffer untouched, and still moves the cursor back circularly: to `C - 1` when
it was 0 and to `tos - 1` otherwise. -/
theorem over_pop [PCState PC] (C : Nat) (hC : 0 < C) (s : ReturnAddrStack PC)
    (hs : Reachable C s) (h0 : s.usedEntries = 0) :
    step s Op.pop = some (pop s) ∧ (pop s).usedEntries = 0 ∧
      (pop s).tos = (if s.tos = 0 then C - 1 else s.tos - 1) ∧
      (pop s).tos < C ∧ (pop s).addrStack = s.addrStack ∧
      (pop s).numEntries = s.numEntries := by
  have hi := hs.inv hC
  refine ⟨rfl, ?_, ?_, hi.popOk.top, pop_addrStack s, pop_numEntries s⟩
  · rw [pop_usedEntries, h0]
  · rw [pop_tos, hi.cap]

/-- Witness for C12: capacity 3, popping the freshly initialised stack, whose
cursor is 0 and therefore wraps to 2. -/
theorem over_pop_witness :
    step (⟨3, [0, 0, 0], 0, 0⟩ : ReturnAddrStack Nat) Op.pop
        = some (pop (⟨3, [0, 0, 0], 0, 0⟩ : ReturnAddrStack Nat)) ∧
      (pop (⟨3, [0, 0, 0], 0, 0⟩ : ReturnAddrStack Nat)).usedEntries = 0 ∧
      (pop (⟨3, [0, 0, 0], 0, 0⟩ : ReturnAddrStack Nat)).tos
        = (if (⟨3, [0, 0, 0], 0, 0⟩ : ReturnAddrStack Nat).tos = 0 then 3 - 1
            else (⟨3, [0, 0, 0], 0, 0⟩ : ReturnAddrStack Nat).tos - 1) ∧
      (pop (⟨3, [0, 0, 0], 0, 0⟩ : ReturnAddrStack Nat)).tos < 3 ∧
      (pop (⟨3, [0, 0, 0], 0, 0⟩ : ReturnAddrStack Nat)).addrStack
        = (⟨3, [0, 0, 0], 0, 0⟩ : ReturnAddrStack Nat).addrStack ∧
      (pop (⟨3, [0, 0, 0], 0, 0⟩ : ReturnAddrStack Nat)).numEntries
        = (⟨3, [0, 0, 0], 0, 0⟩ : ReturnAddrStack Nat).numEntries :=
  over_pop 3 (by decide) ⟨3, [0, 0, 0], 0, 0⟩ ⟨blank, [], by decide⟩ rfl

/-- C13. Restore frame: on every state reachable after `init(C)`, `C > 0`,
`restore(t, v)` with `t < C` leaves `usedEntries`, the capacity, the number of
slots and every slot other than slot `t` as they were. -/
theorem restore_frame [PCState PC] (C : Nat) (hC : 0 < C) (s : ReturnAddrStack PC)
    (hs : Reachable C s) (t : Nat) (ht : t < C) (v : PC) :
    ∃ s1, restore t v s = some s1 ∧ s1.usedEntries = s.usedEntries ∧
      s1.numEntries = s.numEntries ∧ s1.addrStack.length = s.addrStack.length ∧
      ∀ p : Nat, p ≠ t → s1.addrStack[p]? = s.addrStack[p]? := by
  have hi := hs.inv hC
  have hlt : t < s.addrStack.length := by rw [hi.len]; exact ht
  refine ⟨_, restore_eq_some t v s hlt, rfl, rfl, ?_, ?_⟩
  · show (s.addrStack.set t v).length = s.addrStack.length
    simp
  · intro p hp
    show (s.addrStack.set t v)[p]? = s.addrStack[p]?
    exact List.getElem?_set_ne (fun h => hp h.symm)

/-- Witness for C13: capacity 3 after two pushes, restoring slot 0. -/
theorem restore_frame_witness :
    ∃ s1, restore 0 8 (⟨3, [0, 4, 5], 2, 2⟩ : ReturnAddrStack Nat) = some s1 ∧
      s1.usedEntries = (⟨3, [0, 4, 5], 2, 2⟩ : ReturnAddrStack Nat).usedEntries ∧
      s1.numEntries = (⟨3, [0, 4, 5], 2, 2⟩ : ReturnAddrStack Nat).numEntries ∧
      s1.addrStack.length = (⟨3, [0, 4, 5], 2, 2⟩ : ReturnAddrStack Nat).addrStack.length ∧
      ∀ p : Nat, p ≠ 0 →
        s1.addrStack[p]? = (⟨3, [0, 4, 5], 2, 2⟩ : ReturnAddrStack Nat).addrStack[p]? :=
  restore_frame 3 (by decide) ⟨3, [0, 4, 5], 2, 2⟩ ⟨blank, [Op.push 4, Op.push 5], by decide⟩
    0 (by decide) 8

/-! ## Further auxiliary lemmas -/

theorem set_eq_self_of_getElem? {l : List PC} {i : Nat} {v : PC} (h : l[i]? = some v) :
    l.set i v = l := by
  apply List.ext_getElem?
  intro j
  by_cases hj : i = j
  · subst hj
    have hlt : i < l.length := (List.getElem?_eq_some_iff.1 h).1
    rw [List.getElem?_set_self hlt, h]
  · rw [List.getElem?_set_ne hj]

/-- The loop of `reset` completes only when the vector has `n` slots. -/
theorem resetLoop_some_le [PCState PC] (stk : List PC) :
    ∀ (n : Nat) (out : List PC), resetLoop n stk = some out → n ≤ stk.length := by
  intro n
  induction n with
  | zero => intro _ _; exact Nat.zero_le _
  | succ k ih =>
    intro out h
    unfold resetLoop at h
    rw [List.range_succ, List.foldlM_append] at h
    cases hk : resetLoop k stk with
    | none =>
      unfold resetLoop at hk
      rw [hk] at h
      simp at h
    | some mid =>
      have hle := ih mid hk
      have hmid := resetLoop_eq stk k hle
      rw [hk] at hmid
      have hlen : mid.length = stk.length := by
        rw [Option.some.inj hmid]
        simp only [List.length_append, List.length_replicate, List.length_drop]
        omega
      unfold resetLoop at hk
      rw [hk] at h
      simp only [Option.bind_eq_bind, Option.some_bind, List.foldlM_cons, List.foldlM_nil] at h
      by_cases hlt : k < mid.length
      · omega
      · rw [store_eq_none _ (Nat.le_of_not_lt hlt)] at h
        simp at h

theorem reset_eq_of_le [PCState PC] (s : ReturnAddrStack PC)
    (h : s.numEntries ≤ s.addrStack.length) :
    reset s = some ⟨s.numEntries,
      List.replicate s.numEntries PCState.zero ++ s.addrStack.drop s.numEntries, 0, 0⟩ := by
  unfold reset
  rw [resetLoop_eq s.addrStack s.numEntries h]
  rfl

theorem reset_eq_none_iff [PCState PC] (s : ReturnAddrStack PC) :
    reset s = none ↔ s.addrStack.length < s.numEntries := by
  constructor
  · intro h
    by_cases hle : s.numEntries ≤ s.addrStack.length
    · rw [reset_eq_of_le s hle] at h
      exact Option.noConfusion h
    · omega
  · intro h
    cases hr : resetLoop s.numEntries s.addrStack with
    | none => simp [reset, hr]
    | some out =>
      have := resetLoop_some_le s.addrStack s.numEntries out hr
      omega

/-! ## The claims, continued -/

/-- C14, as stated, fails: `init` does not look at its argument before using it,
so `init(0)` returns normally instead of failing. -/
theorem init_zero_counterexample :
    ¬ (init (blank : ReturnAddrStack Nat) 0 = none) := by
  decide

/-- C14, amended. `init` makes no check of the capacity: on any object `init(0)`
returns normally, with capacity 0, an empty buffer, `tos = 0` and
`usedEntries = 0`. -/
theorem init_zero_capacity [PCState PC] (s0 : ReturnAddrStack PC) :
    init s0 0 = some ⟨0, [], 0, 0⟩ := by
  rw [init_eq]
  rfl

/-- C15, as stated, fails on a full buffer: `push` leaves a saturated
`usedEntries` unchanged and `pop` then lowers it.  With capacity 2 the state
`⟨2, [9, 7], 0, 2⟩` is reachable; after `push(4)` and `pop()` its `usedEntries`
is 1, not 2. -/
theorem occupancy_round_trip_counterexample :
    Reachable 2 (⟨2, [9, 7], 0, 2⟩ : ReturnAddrStack Nat) ∧
      ¬ ∃ s1, push 4 (⟨2, [9, 7], 0, 2⟩ : ReturnAddrStack Nat) = some s1 ∧
          (pop s1).usedEntries = (⟨2, [9, 7], 0, 2⟩ : ReturnAddrStack Nat).usedEntries := by
  refine ⟨⟨blank, [Op.push 7, Op.push 9], by decide⟩, ?_⟩
  rintro ⟨s1, h1, h2⟩
  have hp : push 4 (⟨2, [9, 7], 0, 2⟩ : ReturnAddrStack Nat) = some ⟨2, [9, 4], 1, 2⟩ := by
    decide
  rw [hp] at h1
  have : s1 = ⟨2, [9, 4], 1, 2⟩ := (Option.some.inj h1).symm
  subst this
  revert h2
  decide

/-- C15, amended. On every state reachable after `init(C)`, `C > 0`, `push(v)`
followed by `pop()` gives back the `usedEntries` of before the push when that
was below `C`; on a full buffer (`usedEntries = C`) it leaves `C - 1`. -/
theorem occupancy_round_trip [PCState PC] (C : Nat) (hC : 0 < C) (hC32 : C < wordMod)
    (s : ReturnAddrStack PC) (hs : Reachable C s) (v : PC) :
    ∃ s1, push v s = some s1 ∧
      (s.usedEntries < C → (pop s1).usedEntries = s.usedEntries) ∧
      (s.usedEntries = C → (pop s1).usedEntries = C - 1) := by
  have hi := hs.inv hC
  have hu := hi.used
  have hpush := push_eq_some v s hi.incr_lt
  rw [hi.cap] at hpush
  refine ⟨_, hpush, ?_, ?_⟩
  · intro hlt
    rw [pop_usedEntries]
    show (if s.usedEntries ≠ C then (s.usedEntries + 1) % wordMod else s.usedEntries) - 1
      = s.usedEntries
    have hne : s.usedEntries ≠ C := by omega
    rw [if_pos hne, Nat.mod_eq_of_lt (by omega)]
    omega
  · intro heq
    rw [pop_usedEntries]
    show (if s.usedEntries ≠ C then (s.usedEntries + 1) % wordMod else s.usedEntries) - 1
      = C - 1
    have hne : ¬ s.usedEntries ≠ C := by omega
    rw [if_neg hne, heq]

/-- Witness for the amended C15: capacity 2 with one slot used. -/
theorem occupancy_round_trip_witness :
    ∃ s1, push 9 (⟨2, [0, 7], 1, 1⟩ : ReturnAddrStack Nat) = some s1 ∧
      ((⟨2, [0, 7], 1, 1⟩ : ReturnAddrStack Nat).usedEntries < 2 →
        (pop s1).usedEntries = (⟨2, [0, 7], 1, 1⟩ : ReturnAddrStack Nat).usedEntries) ∧
      ((⟨2, [0, 7], 1, 1⟩ : ReturnAddrStack Nat).usedEntries = 2 →
        (pop s1).usedEntries = 2 - 1) :=
  occupancy_round_trip 2 (by decide) (by decide) ⟨2, [0, 7], 1, 1⟩
    ⟨blank, [Op.push 7], by decide⟩ 9

theorem restoresBelow_append (C : Nat) (xs ys : List (Op PC)) :
    RestoresBelow C (xs ++ ys) ↔ RestoresBelow C xs ∧ RestoresBelow C ys := by
  induction xs with
  | nil => simp [RestoresBelow]
  | cons op xs ih =>
    cases op <;> simp [RestoresBelow, ih, and_assoc]

theorem step_eq_none_iff [PCState PC] (s : ReturnAddrStack PC) (op : Op PC) :
    step s op = none ↔ ∃ i ∈ subscripts s op, s.addrStack.length ≤ i := by
  cases op with
  | reset =>
    show reset s = none ↔ ∃ i ∈ List.range s.numEntries, s.addrStack.length ≤ i
    rw [reset_eq_none_iff]
    constructor
    · intro h
      exact ⟨s.addrStack.length, List.mem_range.2 h, Nat.le_refl _⟩
    · rintro ⟨i, hi, hle⟩
      exact Nat.lt_of_le_of_lt hle (List.mem_range.1 hi)
  | push v =>
    show push v s = none ↔ ∃ i ∈ [(incrTos s).tos], s.addrStack.length ≤ i
    by_cases h : (incrTos s).tos < s.addrStack.length
    · have h1 : (s.tos + 1) % s.numEntries < s.addrStack.length := h
      rw [push_eq_some v s h1]
      constructor
      · intro hc
        exact Option.noConfusion hc
      · rintro ⟨i, hi, hle⟩
        rw [List.mem_singleton.1 hi] at hle
        omega
    · have h1 : (incrTos s).addrStack.length ≤ (incrTos s).tos := Nat.le_of_not_lt h
      unfold push
      simp only [store_eq_none v h1, Option.map_none', List.mem_singleton, exists_eq_left,
        true_iff]
      exact h1
  | pop =>
    show some (pop s) = none ↔ ∃ i ∈ ([] : List Nat), s.addrStack.length ≤ i
    simp
  | restore idx v =>
    show restore idx v s = none ↔ ∃ i ∈ [idx], s.addrStack.length ≤ i
    by_cases h : idx < s.addrStack.length
    · rw [restore_eq_some idx v s h]
      constructor
      · intro hc
        exact Option.noConfusion hc
      · rintro ⟨i, hi, hle⟩
        rw [List.mem_singleton.1 hi] at hle
        omega
    · rw [restore_eq_none idx v s (Nat.le_of_not_lt h)]
      simp only [List.mem_singleton, exists_eq_left, true_iff]
      exact Nat.le_of_not_lt h

/-- C16. Capacity is immutable after `init`: on every state reachable after
`init(C)`, `C > 0`, the capacity and the number of slots are `C`, and each of
reset, push, pop and restore (with an index below `C`) returns a state in which
both are still `C`. -/
theorem capacity_immutable [PCState PC] (C : Nat) (hC : 0 < C) (s : ReturnAddrStack PC)
    (hs : Reachable C s) (op : Op PC) (hop : RestoresBelow C [op]) :
    s.numEntries = C ∧ s.addrStack.length = C ∧
      ∃ s1, step s op = some s1 ∧ s1.numEntries = C ∧ s1.addrStack.length = C := by
  have hi := hs.inv hC
  obtain ⟨s1, h1, hi1⟩ := Inv.runOk [op] hi hop
  rw [run_cons] at h1
  cases hstep : step s op with
  | none => simp [hstep] at h1
  | some s2 =>
    have hi2 := hi.ofStep op hstep
    exact ⟨hi.cap, hi.len, s2, rfl, hi2.cap, hi2.len⟩

/-- Witness for C16: capacity 2, a restore into slot 0 of a full buffer. -/
theorem capacity_immutable_witness :
    (⟨2, [9, 7], 0, 2⟩ : ReturnAddrStack Nat).numEntries = 2 ∧
      (⟨2, [9, 7], 0, 2⟩ : ReturnAddrStack Nat).addrStack.length = 2 ∧
      ∃ s1, step (⟨2, [9, 7], 0, 2⟩ : ReturnAddrStack Nat) (Op.restore 0 3) = some s1 ∧
        s1.numEntries = 2 ∧ s1.addrStack.length = 2 :=
  capacity_immutable 2 (by decide) ⟨2, [9, 7], 0, 2⟩
    ⟨blank, [Op.push 7, Op.push 9], by decide⟩ (Op.restore 0 3) (by simp [RestoresBelow])

/-- C17. `reset` is idempotent: for every state `s`, running `reset` on the result
of `reset` gives the result of `reset` itself, equal in every field; and `reset`
returns a state exactly when the vector has at least `numEntries` slots. -/
theorem reset_idempotent [PCState PC] (s : ReturnAddrStack PC) :
    (reset s).bind reset = reset s ∧
      (reset s = none ↔ s.addrStack.length < s.numEntries) := by
  refine ⟨?_, reset_eq_none_iff s⟩
  by_cases hle : s.numEntries ≤ s.addrStack.length
  · rw [reset_eq_of_le s hle, Option.some_bind]
    have hlen : s.numEntries ≤ (List.replicate s.numEntries (PCState.zero : PC)
        ++ s.addrStack.drop s.numEntries).length := by
      simp only [List.length_append, List.length_replicate, List.length_drop]
      omega
    rw [reset_eq_of_le ⟨s.numEntries, List.replicate s.numEntries (PCState.zero : PC)
        ++ s.addrStack.drop s.numEntries, 0, 0⟩ hlen]
    simp only [List.drop_left' (List.length_replicate _ _)]
  · have hn : reset s = none := (reset_eq_none_iff s).2 (Nat.lt_of_not_le hle)
    rw [hn]
    rfl

/-- C18. Undoing a pop: on every state `s` reachable after `init(C)`, `C > 0`,
with the checkpoint `(s.tos, v)` where `v` is the value in the top slot of `s`,
`restore` applied to `pop(s)` returns a state whose cursor, whole buffer and
capacity are those of `s`; its `usedEntries` is one lower than that of `s`
when that was positive, and 0 when it was 0. -/
theorem undo_pop [PCState PC] (C : Nat) (hC : 0 < C) (s : ReturnAddrStack PC)
    (hs : Reachable C s) :
    ∃ v s1, topValue s = some v ∧ restore s.tos v (pop s) = some s1 ∧
      s1.tos = s.tos ∧ s1.addrStack = s.addrStack ∧ s1.numEntries = s.numEntries ∧
      s1.usedEntries = s.usedEntries - 1 := by
  have hi := hs.inv hC
  have hlt : s.tos < s.addrStack.length := by rw [hi.len]; exact hi.top
  have hv : s.addrStack[s.tos]? = some s.addrStack[s.tos] := List.getElem?_eq_getElem hlt
  have hlt2 : s.tos < (pop s).addrStack.length := by rw [pop_addrStack]; exact hlt
  refine ⟨s.addrStack[s.tos], _, hv, restore_eq_some s.tos _ (pop s) hlt2, rfl, ?_, ?_, ?_⟩
  · show (pop s).addrStack.set s.tos s.addrStack[s.tos] = s.addrStack
    rw [pop_addrStack]
    exact set_eq_self_of_getElem? hv
  · exact pop_numEntries s
  · exact pop_usedEntries s

/-- Witness for C18: capacity 2 with a full buffer whose cursor is 0, so the pop
wraps the cursor to 1 and the restore brings it back. -/
theorem undo_pop_witness :
    ∃ v s1, topValue (⟨2, [9, 7], 0, 2⟩ : ReturnAddrStack Nat) = some v ∧
      restore (⟨2, [9, 7], 0, 2⟩ : ReturnAddrStack Nat).tos v
        (pop (⟨2, [9, 7], 0, 2⟩ : ReturnAddrStack Nat)) = some s1 ∧
      s1.tos = (⟨2, [9, 7], 0, 2⟩ : ReturnAddrStack Nat).tos ∧
      s1.addrStack = (⟨2, [9, 7], 0, 2⟩ : ReturnAddrStack Nat).addrStack ∧
      s1.numEntries = (⟨2, [9, 7], 0, 2⟩ : ReturnAddrStack Nat).numEntries ∧
      s1.usedEntries = (⟨2, [9, 7], 0, 2⟩ : ReturnAddrStack Nat).usedEntries - 1 :=
  undo_pop 2 (by decide) ⟨2, [9, 7], 0, 2⟩ ⟨blank, [Op.push 7, Op.push 9], by decide⟩

/-- C19. No out-of-bounds access: after `init(C)` with `C > 0`, along every
sequence of reset, push, pop and restore calls whose restore indices are below
`C`, the whole sequence runs to a state, and at each call `op` of the sequence
the state `s` before it has `C` slots and every subscript that `op` applies to
`addrStack` is below `C`; since a call ends in the error branch exactly when
one of its subscripts is outside the vector, no call does. -/
theorem no_out_of_bounds [PCState PC] (C : Nat) (hC : 0 < C) (s0 : ReturnAddrStack PC)
    (before : List (Op PC)) (op : Op PC) (after : List (Op PC))
    (hr : RestoresBelow C (before ++ op :: after)) :
    (∃ sF, runFromInit s0 C (before ++ op :: after) = some sF) ∧
    ∃ s, runFromInit s0 C before = some s ∧ s.addrStack.length = C ∧
      (∀ i ∈ subscripts s op, i < C) ∧
      (step s op = none ↔ ∃ i ∈ subscripts s op, s.addrStack.length ≤ i) ∧
      step s op ≠ none := by
  obtain ⟨sF, hF, _⟩ := Inv.runOk (before ++ op :: after) (inv_fresh PC hC) hr
  have hsplit := (restoresBelow_append C before (op :: after)).1 hr
  obtain ⟨s, hrun, hi⟩ := Inv.runOk before (inv_fresh PC hC) hsplit.1
  have hsub : ∀ i ∈ subscripts s op, i < C := by
    intro i hmem
    cases op with
    | reset =>
      have : i < s.numEntries := List.mem_range.1 hmem
      rw [hi.cap] at this
      exact this
    | push v =>
      have : i = (s.tos + 1) % s.numEntries := List.mem_singleton.1 hmem
      rw [this, hi.cap]
      exact Nat.mod_lt _ hC
    | pop => simp [subscripts] at hmem
    | restore idx v =>
      have : i = idx := List.mem_singleton.1 hmem
      have hidx : idx < C ∧ RestoresBelow C after := by
        simpa [RestoresBelow] using hsplit.2
      rw [this]
      exact hidx.1
  refine ⟨⟨sF, by rw [runFromInit_eq]; exact hF⟩, s, by rw [runFromInit_eq]; exact hrun,
    hi.len, hsub, step_eq_none_iff s op, ?_⟩
  intro hnone
  obtain ⟨i, hmem, hle⟩ := (step_eq_none_iff s op).1 hnone
  have := hsub i hmem
  rw [hi.len] at hle
  omega

/-- Witness for C19: capacity 2; the call examined is the third push, which
wraps the cursor, in a sequence that also over-pops, restores and resets. -/
theorem no_out_of_bounds_witness :
    (∃ sF, runFromInit (blank : ReturnAddrStack Nat) 2
        ([Op.pop, Op.push 3, Op.push 4] ++ Op.push 5 :: [Op.restore 1 8, Op.reset, Op.pop])
        = some sF) ∧
    ∃ s, runFromInit (blank : ReturnAddrStack Nat) 2 [Op.pop, Op.push 3, Op.push 4] = some s ∧
      s.addrStack.length = 2 ∧
      (∀ i ∈ subscripts s (Op.push 5), i < 2) ∧
      (step s (Op.push 5) = none ↔ ∃ i ∈ subscripts s (Op.push 5), s.addrStack.length ≤ i) ∧
      step s (Op.push 5) ≠ none :=
  no_out_of_bounds 2 (by decide) blank [Op.pop, Op.push 3, Op.push 4] (Op.push 5)
    [Op.restore 1 8, Op.reset, Op.pop] (by simp [RestoresBelow])

end RAS

namespace DRAMSim3

variable {Clock : Type}

/-- C20. Construction of `DRAMSim3Wrapper` from the four reported values, each of
the three integers being an `unsigned int` value: the constructor ends in
`fatal` exactly when the clock period is zero, or the queue size is zero, or
the bus bits or the burst length is zero; otherwise it returns a wrapper whose
`queueSize()` is the reported queue size and whose `burstSize()` is
`((busBits * burstLength) mod 2 ^ 32) / 8`, the division truncating. -/
theorem construct_spec [ClockPeriod Clock] (dramsim : MemorySystem Clock)
    (hq : dramsim.GetQueueSize < RAS.wordMod) (hb : dramsim.GetBusBits < RAS.wordMod)
    (hl : dramsim.GetBurstLength < RAS.wordMod) :
    ((∃ e, DRAMSim3Wrapper.construct dramsim = Except.error e) ↔
      (ClockPeriod.isZero dramsim.GetTCK = true ∨ dramsim.GetQueueSize = 0 ∨
        dramsim.GetBusBits = 0 ∨ dramsim.GetBurstLength = 0)) ∧
    (¬ (ClockPeriod.isZero dramsim.GetTCK = true ∨ dramsim.GetQueueSize = 0 ∨
        dramsim.GetBusBits = 0 ∨ dramsim.GetBurstLength = 0) →
      ∃ w, DRAMSim3Wrapper.construct dramsim = Except.ok w ∧
        w.queueSize = dramsim.GetQueueSize ∧
        w.burstSize = dramsim.GetBusBits * dramsim.GetBurstLength % RAS.wordMod / 8) := by
  have hq' : dramsim.GetQueueSize % RAS.wordMod = dramsim.GetQueueSize := Nat.mod_eq_of_lt hq
  have hb' : dramsim.GetBusBits % RAS.wordMod = dramsim.GetBusBits := Nat.mod_eq_of_lt hb
  have hl' : dramsim.GetBurstLength % RAS.wordMod = dramsim.GetBurstLength :=
    Nat.mod_eq_of_lt hl
  unfold DRAMSim3Wrapper.construct
  simp only [hq', hb', hl']
  by_cases h1 : ClockPeriod.isZero dramsim.GetTCK = true
  · simp [h1]
  · by_cases h2 : dramsim.GetQueueSize = 0
    · simp [h1, h2]
    · by_cases h3 : dramsim.GetBusBits = 0
      · simp [h1, h2, h3]
      · by_cases h4 : dramsim.GetBurstLength = 0
        · simp [h1, h2, h3, h4]
        · simp [h1, h2, h3, h4, DRAMSim3Wrapper.queueSize, DRAMSim3Wrapper.burstSize]

/-- Witness for C20: a clock period of 1250, a queue of 32 transactions, a
64-bit bus and bursts of length 8, which give a burst size of 64 bytes. -/
theorem construct_spec_witness :
    ((∃ e, DRAMSim3Wrapper.construct (⟨1250, 32, 64, 8⟩ : MemorySystem Nat) = Except.error e) ↔
      (ClockPeriod.isZero (⟨1250, 32, 64, 8⟩ : MemorySystem Nat).GetTCK = true ∨
        (⟨1250, 32, 64, 8⟩ : MemorySystem Nat).GetQueueSize = 0 ∨
        (⟨1250, 32, 64, 8⟩ : MemorySystem Nat).GetBusBits = 0 ∨
        (⟨1250, 32, 64, 8⟩ : MemorySystem Nat).GetBurstLength = 0)) ∧
    (¬ (ClockPeriod.isZero (⟨1250, 32, 64, 8⟩ : MemorySystem Nat).GetTCK = true ∨
        (⟨1250, 32, 64, 8⟩ : MemorySystem Nat).GetQueueSize = 0 ∨
        (⟨1250, 32, 64, 8⟩ : MemorySystem Nat).GetBusBits = 0 ∨
        (⟨1250, 32, 64, 8⟩ : MemorySystem Nat).GetBurstLength = 0) →
      ∃ w, DRAMSim3Wrapper.construct (⟨1250, 32, 64, 8⟩ : MemorySystem Nat) = Except.ok w ∧
        w.queueSize = (⟨1250, 32, 64, 8⟩ : MemorySystem Nat).GetQueueSize ∧
        w.burstSize = (⟨1250, 32, 64, 8⟩ : MemorySystem Nat).GetBusBits
          * (⟨1250, 32, 64, 8⟩ : MemorySystem Nat).GetBurstLength % RAS.wordMod / 8) :=
  construct_spec ⟨1250, 32, 64, 8⟩ (by decide) (by decide) (by decide)

end DRAMSim3
